import Mathlib

/-!
Verification of the transaction-optimization model in
`optimize_transactions.py`.

The script reads a table of per-person net balances, builds a PuLP MIP
(variables `Payout`, `Payment` per ordered pair of distinct names and a
binary `Is_Transaction` per unordered pair), minimizes the number of
transactions, solves, and prints the nonzero `Payment` variables.

We embed the model shallowly: balances become rationals, the parsed csv
rows become a `List (String × ℚ)`, the LP variables become fields of an
`Assignment`, and the generated constraint set becomes the predicate
`Feasible`.
-/

namespace TransOpt

/-- A parsed input: the rows of `data.csv` after the header, with the
net transaction amount already converted to a number
(`net_transactions = {name: float(trans) for name, trans in data}`). -/
abbrev Input := List (String × ℚ)

/-- `names = list(net_transactions.keys())`. -/
def names (input : Input) : List String := input.map Prod.fst

/-- Dictionary lookup `net_transactions[name]`.  On the inputs we study the
name list is duplicate-free, so `List.lookup` agrees with the Python dict. -/
def nets (input : Input) (n : String) : ℚ := (input.lookup n).getD 0

/-- `name_combos = [(n1, n2) for n1 in names for n2 in names if n1 != n2]`. -/
def name_combos (l : List String) : List (String × String) :=
  l.flatMap (fun n1 => (l.filter (fun n2 => n1 ≠ n2)).map (fun n2 => (n1, n2)))

/-- `name_combos_u = [(n1, n2) for i, n1 in enumerate(names) for n2 in names[i+1:]]`:
each unordered pair of distinct positions appears once, in list order. -/
def name_combos_u : List String → List (String × String)
  | [] => []
  | n1 :: rest => rest.map (fun n2 => (n1, n2)) ++ name_combos_u rest

/-- Python's `max` over a list of values; `none` on the empty list, where the
Python call raises `ValueError`. -/
def pyMax : List ℚ → Option ℚ
  | [] => none
  | x :: xs => some (xs.foldl max x)

/-- Python's `min` over a list of values; `none` on the empty list. -/
def pyMin : List ℚ → Option ℚ
  | [] => none
  | x :: xs => some (xs.foldl min x)

/-- `max_payout = max(net_transactions.values())`.  The `.getD 0` default is
never used on a nonempty input (the Python call raises on an empty one). -/
def max_payout (input : Input) : ℚ := (pyMax (input.map Prod.snd)).getD 0

/-- `max_payment = abs(min(net_transactions.values()))`. -/
def max_payment (input : Input) : ℚ := |(pyMin (input.map Prod.snd)).getD 0|

/-- Values of the decision variables of the model.  `payout` and `payment`
are the dictionaries `Payout`/`Payment` indexed by ordered name pairs,
`is_trans` is `Is_Transaction` indexed by the unordered pairs
`name_combos_u` (we read `is_trans a b` at the canonical orientation). -/
structure Assignment where
  payout : String → String → ℚ
  payment : String → String → ℚ
  is_trans : String → String → ℚ

/-- The constraint set the script generates, together with the variable
bounds declared in `LpVariable.dicts`:

* `Payout` has lower bound 0, `Payment` has upper bound 0,
  `Is_Transaction` is an integer between 0 and 1;
* `Net_is_zero_(n1,n2)`: `payout[(n1,n2)] + payment[(n2,n1)] == 0`;
* `Is_payout_*` / `Is_payment_*` for each unordered pair, bounding both
  directions by big-M times the pair's indicator;
* `Payout_n1` / `Payment_n1`: the per-participant balance equations,
  split on the sign of `net_transactions[n1]`. -/
def Feasible (input : Input) (A : Assignment) : Prop :=
  (∀ p ∈ name_combos (names input), 0 ≤ A.payout p.1 p.2) ∧
  (∀ p ∈ name_combos (names input), A.payment p.1 p.2 ≤ 0) ∧
  (∀ p ∈ name_combos_u (names input),
      A.is_trans p.1 p.2 = 0 ∨ A.is_trans p.1 p.2 = 1) ∧
  (∀ p ∈ name_combos (names input),
      A.payout p.1 p.2 + A.payment p.2 p.1 = 0) ∧
  (∀ p ∈ name_combos_u (names input),
      A.payout p.1 p.2 - max_payout input * A.is_trans p.1 p.2 ≤ 0 ∧
      A.payout p.2 p.1 - max_payout input * A.is_trans p.1 p.2 ≤ 0 ∧
      A.payment p.1 p.2 + max_payment input * A.is_trans p.1 p.2 ≥ 0 ∧
      A.payment p.2 p.1 + max_payment input * A.is_trans p.1 p.2 ≥ 0) ∧
  (∀ n1 ∈ names input,
      if 0 ≤ nets input n1 then
        (((names input).filter (fun n2 => n1 ≠ n2)).map
            (fun n2 => A.payout n1 n2)).sum = nets input n1 ∧
        (((names input).filter (fun n2 => n1 ≠ n2)).map
            (fun n2 => A.payment n1 n2)).sum = 0
      else
        (((names input).filter (fun n2 => n1 ≠ n2)).map
            (fun n2 => A.payout n1 n2)).sum = 0 ∧
        (((names input).filter (fun n2 => n1 ≠ n2)).map
            (fun n2 => A.payment n1 n2)).sum = nets input n1)

/-- The objective `lpSum([is_trans[nc] for nc in name_combos_u])`. -/
def objectiveVal (input : Input) (A : Assignment) : ℚ :=
  ((name_combos_u (names input)).map (fun p => A.is_trans p.1 p.2)).sum

/-- A feasible assignment of minimum objective value. -/
def IsOptimal (input : Input) (A : Assignment) : Prop :=
  Feasible input A ∧
    ∀ B, Feasible input B → objectiveVal input A ≤ objectiveVal input B

/-- The post-solve printing loop: every `Payment` variable whose value is
nonzero is printed as `name = value`.  We record the printed lines as
(payer, payee, value) triples in variable-dictionary order. -/
def printedPayments (input : Input) (A : Assignment) :
    List (String × String × ℚ) :=
  (name_combos (names input)).filterMap
    (fun p => if A.payment p.1 p.2 ≠ 0 then some (p.1, p.2, A.payment p.1 p.2)
              else none)

/-- The one runtime error the script itself can hit after parsing: `max()`
(line 34) and `min()` (line 35) raise `ValueError` on an empty mapping. -/
inductive PyError where
  | valueError
deriving DecidableEq

/-- What the script prints after `prob.solve()`: the objective value and the
nonzero `Payment` variables. -/
structure SolveOutput where
  objective : ℚ
  payments : List (String × String × ℚ)
deriving DecidableEq

/-- The whole script after csv parsing, with the opaque solver passed in as
a function from the problem data to variable values: compute the big-M
parameters (raising `ValueError` on an empty mapping), build the model,
solve, and print.  No validation of the input happens anywhere, and no
exception other than the `max`/`min` `ValueError` is ever raised. -/
def runProgram (input : Input) (solver : Input → Assignment) :
    Except PyError SolveOutput :=
  match pyMax (input.map Prod.snd), pyMin (input.map Prod.snd) with
  | some _, some _ =>
      .ok ⟨objectiveVal input (solver input),
           printedPayments input (solver input)⟩
  | _, _ => .error .valueError

/-- Modelled from the spec: the realized net of a participant, "the sum of
realized transfers" touching them — incoming `payout` plus (negative)
outgoing `payment` toward every partner.  The script never computes this;
it is the quantity the spec's reconciliation check compares to
`net_transactions[n1]`. -/
def specRealizedNet (input : Input) (A : Assignment) (n1 : String) : ℚ :=
  (((names input).filter (fun n2 => n1 ≠ n2)).map
      (fun n2 => A.payout n1 n2 + A.payment n1 n2)).sum

/-- The total of all `Payout` variables over the ordered pair index. -/
def totalPayout (input : Input) (A : Assignment) : ℚ :=
  ((name_combos (names input)).map (fun p => A.payout p.1 p.2)).sum

/-- The total of all `Payment` variables over the ordered pair index. -/
def totalPayment (input : Input) (A : Assignment) : ℚ :=
  ((name_combos (names input)).map (fun p => A.payment p.1 p.2)).sum

/-- A concrete two-person input used to instantiate the theorems:
A is owed 100, B owes 100. -/
def inputW : Input := [("A", 100), ("B", -100)]

/-- The optimal solution of `inputW`: B pays A 100. -/
def AW : Assignment where
  payout := fun a b => if a = "A" ∧ b = "B" then 100 else 0
  payment := fun a b => if a = "B" ∧ b = "A" then -100 else 0
  is_trans := fun _ _ => 1

/-- The all-zero variable values. -/
def AZ : Assignment where
  payout := fun _ _ => 0
  payment := fun _ _ => 0
  is_trans := fun _ _ => 0

/-- A solver answer for `inputW` that does NOT reconcile: it transfers
only 50 of the 100 owed. -/
def Abad : Assignment where
  payout := fun a b => if a = "A" ∧ b = "B" then 50 else 0
  payment := fun a b => if a = "B" ∧ b = "A" then -50 else 0
  is_trans := fun _ _ => 1

/-! ### Combinatorics of the index lists -/

theorem mem_name_combos {l : List String} {a b : String} :
    (a, b) ∈ name_combos l ↔ a ∈ l ∧ b ∈ l ∧ a ≠ b := by
  simp only [name_combos, List.mem_flatMap, List.mem_map, List.mem_filter]
  constructor
  · rintro ⟨n1, hn1, n2, ⟨hn2, hne⟩, h⟩
    obtain ⟨rfl, rfl⟩ := Prod.mk.injEq .. ▸ h
    exact ⟨hn1, hn2, by simpa using hne⟩
  · rintro ⟨ha, hb, hne⟩
    exact ⟨a, ha, b, ⟨hb, by simpa using hne⟩, rfl⟩

theorem mem_name_combos_u_mem {l : List String} {a b : String}
    (h : (a, b) ∈ name_combos_u l) : a ∈ l ∧ b ∈ l := by
  induction l with
  | nil => simp [name_combos_u] at h
  | cons x rest ih =>
      simp only [name_combos_u, List.mem_append, List.mem_map] at h
      rcases h with h | h
      · obtain ⟨n2, hn2, h⟩ := h
        obtain ⟨rfl, rfl⟩ := Prod.mk.injEq .. ▸ h
        exact ⟨List.mem_cons_self .., List.mem_cons_of_mem _ hn2⟩
      · exact ⟨List.mem_cons_of_mem _ (ih h).1, List.mem_cons_of_mem _ (ih h).2⟩

theorem name_combos_u_ne {l : List String} (hnd : l.Nodup) {a b : String}
    (h : (a, b) ∈ name_combos_u l) : a ≠ b := by
  induction l with
  | nil => simp [name_combos_u] at h
  | cons x rest ih =>
      simp only [name_combos_u, List.mem_append, List.mem_map] at h
      obtain ⟨hx, hrest⟩ := List.nodup_cons.mp hnd
      rcases h with h | h
      · obtain ⟨n2, hn2, h⟩ := h
        obtain ⟨rfl, rfl⟩ := Prod.mk.injEq .. ▸ h
        rintro rfl; exact hx hn2
      · exact ih hrest h

theorem name_combos_u_subset {l : List String} (hnd : l.Nodup)
    {a b : String} (h : (a, b) ∈ name_combos_u l) : (a, b) ∈ name_combos l :=
  mem_name_combos.mpr
    ⟨(mem_name_combos_u_mem h).1, (mem_name_combos_u_mem h).2,
      name_combos_u_ne hnd h⟩

theorem name_combos_u_total {l : List String} (hnd : l.Nodup)
    {a b : String} (ha : a ∈ l) (hb : b ∈ l) (hne : a ≠ b) :
    (a, b) ∈ name_combos_u l ∨ (b, a) ∈ name_combos_u l := by
  induction l with
  | nil => simp at ha
  | cons x rest ih =>
      obtain ⟨hx, hrest⟩ := List.nodup_cons.mp hnd
      simp only [name_combos_u, List.mem_append, List.mem_map]
      rcases List.mem_cons.mp ha with h1 | h1
      · rcases List.mem_cons.mp hb with h2 | h2
        · exact absurd (h1.trans h2.symm) hne
        · exact Or.inl (Or.inl ⟨b, h2, by rw [h1]⟩)
      · rcases List.mem_cons.mp hb with h2 | h2
        · exact Or.inr (Or.inl ⟨a, h1, by rw [h2]⟩)
        · rcases ih hrest h1 h2 with h | h
          · exact Or.inl (Or.inr h)
          · exact Or.inr (Or.inr h)

theorem name_combos_u_antisymm {l : List String} (hnd : l.Nodup)
    {a b : String} (hab : (a, b) ∈ name_combos_u l)
    (hba : (b, a) ∈ name_combos_u l) : False := by
  induction l with
  | nil => simp [name_combos_u] at hab
  | cons x rest ih =>
      obtain ⟨hx, hrest⟩ := List.nodup_cons.mp hnd
      simp only [name_combos_u, List.mem_append, List.mem_map] at hab hba
      rcases hab with h1 | h1 <;> rcases hba with h2 | h2
      · obtain ⟨n2, hn2, h1⟩ := h1
        obtain ⟨m2, hm2, h2⟩ := h2
        obtain ⟨rfl, rfl⟩ := Prod.mk.injEq .. ▸ h1
        obtain ⟨h2a, h2b⟩ := Prod.mk.injEq .. ▸ h2
        exact hx (h2a ▸ hn2)
      · obtain ⟨n2, hn2, h1⟩ := h1
        obtain ⟨rfl, rfl⟩ := Prod.mk.injEq .. ▸ h1
        exact hx (mem_name_combos_u_mem h2).2
      · obtain ⟨n2, hn2, h2⟩ := h2
        obtain ⟨rfl, rfl⟩ := Prod.mk.injEq .. ▸ h2
        exact hx (mem_name_combos_u_mem h1).2
      · exact ih hrest h1 h2

theorem name_combos_u_nodup {l : List String} (hnd : l.Nodup) :
    (name_combos_u l).Nodup := by
  induction l with
  | nil => simp [name_combos_u]
  | cons x rest ih =>
      obtain ⟨hx, hrest⟩ := List.nodup_cons.mp hnd
      refine List.Nodup.append ?_ (ih hrest) ?_
      · exact hrest.map (fun a b h => (Prod.mk.injEq .. ▸ h).2)
      · intro p hp hq
        obtain ⟨n2, hn2, h⟩ := List.mem_map.mp hp
        obtain ⟨a, b⟩ := p
        obtain ⟨rfl, rfl⟩ := Prod.mk.injEq .. ▸ h
        exact hx (mem_name_combos_u_mem hq).1

theorem filter_two_length {α : Type} [DecidableEq α] :
    ∀ {L : List α}, L.Nodup → ∀ {u v : α}, u ∈ L → v ∉ L →
      (L.filter (fun q => q = u ∨ q = v)).length = 1
  | [], _, _, _, hu, _ => absurd hu (List.not_mem_nil _)
  | x :: rest, hnd, u, v, hu, hv => by
      obtain ⟨hx, hrest⟩ := List.nodup_cons.mp hnd
      have hxv : x ≠ v := fun h => hv (h ▸ List.mem_cons_self ..)
      by_cases hxu : x = u
      · subst hxu
        have hnone : rest.filter (fun q => q = x ∨ q = v) = [] := by
          refine List.filter_eq_nil_iff.mpr (fun q hq => ?_)
          simp only [decide_eq_true_eq]
          rintro (rfl | rfl)
          · exact hx hq
          · exact hv (List.mem_cons_of_mem _ hq)
        rw [List.filter_cons, if_pos (by simp), hnone]
        rfl
      · have hu' : u ∈ rest := by
          rcases List.mem_cons.mp hu with h | h
          · exact absurd h.symm hxu
          · exact h
        have hv' : v ∉ rest := fun h => hv (List.mem_cons_of_mem _ h)
        have hlen := filter_two_length hrest hu' hv' (α := α)
        rw [List.filter_cons, if_neg (by simp [hxu, hxv])]
        exact hlen

/-- Each unordered pair of distinct participants is indexed exactly once in
`name_combos_u`: exactly one of its two orientations occurs, once. -/
theorem name_combos_u_once {l : List String} (hnd : l.Nodup)
    {a b : String} (ha : a ∈ l) (hb : b ∈ l) (hne : a ≠ b) :
    ((name_combos_u l).filter
        (fun q => q = (a, b) ∨ q = (b, a))).length = 1 := by
  have hn := name_combos_u_nodup hnd
  rcases name_combos_u_total hnd ha hb hne with h | h
  · have hno : (b, a) ∉ name_combos_u l :=
      fun hc => name_combos_u_antisymm hnd h hc
    exact filter_two_length hn h hno
  · have hno : (a, b) ∉ name_combos_u l :=
      fun hc => name_combos_u_antisymm hnd hc h
    have := filter_two_length hn h hno
    rw [← this]
    congr 1
    refine List.filter_congr (fun q hq => ?_)
    by_cases h1 : q = (a, b) <;> by_cases h2 : q = (b, a) <;> simp [h1, h2]

/-! ### Small list-sum helpers -/

theorem list_sum_eq_filter_length {α : Type} (f : α → ℚ) :
    ∀ L : List α, (∀ x ∈ L, f x = 0 ∨ f x = 1) →
      (L.map f).sum = ((L.filter (fun x => f x = 1)).length : ℚ)
  | [], _ => by simp
  | x :: L, h => by
      have hx := h x (List.mem_cons_self ..)
      have hL := list_sum_eq_filter_length f L
        (fun y hy => h y (List.mem_cons_of_mem _ hy))
      rcases hx with hx | hx <;>
        simp [List.filter_cons, hx, hL, add_comm]

theorem list_sum_zero_of_nonneg {L : List ℚ}
    (h : ∀ x ∈ L, 0 ≤ x) (hs : L.sum = 0) : ∀ x ∈ L, x = 0 := by
  induction L with
  | nil => simp
  | cons a L ih =>
      have ha : 0 ≤ a := h a (List.mem_cons_self ..)
      have hL : 0 ≤ L.sum :=
        List.sum_nonneg (fun x hx => h x (List.mem_cons_of_mem _ hx))
      have hsum : a + L.sum = 0 := by simpa using hs
      have ha0 : a = 0 := le_antisymm (by linarith) ha
      intro x hx
      rcases List.mem_cons.mp hx with rfl | hx
      · exact ha0
      · exact ih (fun y hy => h y (List.mem_cons_of_mem _ hy))
          (by linarith) x hx

theorem list_sum_nonpos {L : List ℚ} (h : ∀ x ∈ L, x ≤ 0) : L.sum ≤ 0 := by
  induction L with
  | nil => simp
  | cons a L ih =>
      have ha := h a (List.mem_cons_self ..)
      have hL := ih (fun y hy => h y (List.mem_cons_of_mem _ hy))
      simpa using add_nonpos ha hL

theorem list_sum_zero_of_nonpos {L : List ℚ}
    (h : ∀ x ∈ L, x ≤ 0) (hs : L.sum = 0) : ∀ x ∈ L, x = 0 := by
  induction L with
  | nil => simp
  | cons a L ih =>
      have ha : a ≤ 0 := h a (List.mem_cons_self ..)
      have hL : L.sum ≤ 0 :=
        list_sum_nonpos (fun y hy => h y (List.mem_cons_of_mem _ hy))
      have hsum : a + L.sum = 0 := by simpa using hs
      have ha0 : a = 0 := le_antisymm ha (by linarith)
      intro x hx
      rcases List.mem_cons.mp hx with rfl | hx
      · exact ha0
      · exact ih (fun y hy => h y (List.mem_cons_of_mem _ hy))
          (by linarith) x hx

/-! ### The big-M parameters -/

theorem foldl_max_mem : ∀ (xs : List ℚ) (x : ℚ), xs.foldl max x ∈ x :: xs
  | [], _ => List.mem_cons_self ..
  | y :: ys, x => by
      have h := foldl_max_mem ys (max x y)
      rw [List.foldl_cons]
      rcases List.mem_cons.mp h with h | h
      · rw [h]
        rcases max_choice x y with hm | hm
        · rw [hm]; exact List.mem_cons_self ..
        · rw [hm]; exact List.mem_cons_of_mem _ (List.mem_cons_self ..)
      · exact List.mem_cons_of_mem _ (List.mem_cons_of_mem _ h)

theorem foldl_max_le : ∀ (xs : List ℚ) (x : ℚ), ∀ z ∈ x :: xs, z ≤ xs.foldl max x
  | [], x, z, hz => by
      have h : z = x := by simpa using hz
      simp [h]
  | y :: ys, x, z, hz => by
      have ih := foldl_max_le ys (max x y)
      rw [List.foldl_cons]
      rcases List.mem_cons.mp hz with h | h
      · subst h
        exact le_trans (le_max_left z y) (ih _ (List.mem_cons_self ..))
      · rcases List.mem_cons.mp h with h2 | h2
        · subst h2
          exact le_trans (le_max_right x z) (ih _ (List.mem_cons_self ..))
        · exact ih z (List.mem_cons_of_mem _ h2)

theorem foldl_min_mem : ∀ (xs : List ℚ) (x : ℚ), xs.foldl min x ∈ x :: xs
  | [], _ => List.mem_cons_self ..
  | y :: ys, x => by
      have h := foldl_min_mem ys (min x y)
      rw [List.foldl_cons]
      rcases List.mem_cons.mp h with h | h
      · rw [h]
        rcases min_choice x y with hm | hm
        · rw [hm]; exact List.mem_cons_self ..
        · rw [hm]; exact List.mem_cons_of_mem _ (List.mem_cons_self ..)
      · exact List.mem_cons_of_mem _ (List.mem_cons_of_mem _ h)

theorem foldl_min_le : ∀ (xs : List ℚ) (x : ℚ), ∀ z ∈ x :: xs, xs.foldl min x ≤ z
  | [], x, z, hz => by
      have h : z = x := by simpa using hz
      simp [h]
  | y :: ys, x, z, hz => by
      have ih := foldl_min_le ys (min x y)
      rw [List.foldl_cons]
      rcases List.mem_cons.mp hz with h | h
      · subst h
        exact le_trans (ih _ (List.mem_cons_self ..)) (min_le_left z y)
      · rcases List.mem_cons.mp h with h2 | h2
        · subst h2
          exact le_trans (ih _ (List.mem_cons_self ..)) (min_le_right x z)
        · exact ih z (List.mem_cons_of_mem _ h2)

theorem max_payout_spec {input : Input} (h : input ≠ []) :
    max_payout input ∈ input.map Prod.snd ∧
      ∀ v ∈ input.map Prod.snd, v ≤ max_payout input := by
  obtain ⟨⟨n, v⟩, rest, rfl⟩ := List.exists_cons_of_ne_nil h
  simp only [max_payout, pyMax, List.map_cons, Option.getD_some]
  exact ⟨foldl_max_mem _ _, fun z hz => foldl_max_le _ _ z hz⟩

theorem max_payment_spec {input : Input} (h : input ≠ []) :
    ∃ m ∈ input.map Prod.snd, max_payment input = |m| ∧
      ∀ v ∈ input.map Prod.snd, m ≤ v := by
  obtain ⟨⟨n, v⟩, rest, rfl⟩ := List.exists_cons_of_ne_nil h
  simp only [max_payment, pyMin, List.map_cons, Option.getD_some]
  exact ⟨_, foldl_min_mem _ _, rfl, fun z hz => foldl_min_le _ _ z hz⟩

theorem max_payout_nonneg {input : Input} (h : input ≠ [])
    (hsum : (input.map Prod.snd).sum = 0) : 0 ≤ max_payout input := by
  by_contra hneg
  push_neg at hneg
  obtain ⟨hmem, hle⟩ := max_payout_spec h
  have hall : ∀ v ∈ input.map Prod.snd, v ≤ 0 :=
    fun v hv => le_trans (hle v hv) (le_of_lt hneg)
  obtain ⟨⟨n, v⟩, rest, rfl⟩ := List.exists_cons_of_ne_nil h
  have hv0 : v < 0 :=
    lt_of_le_of_lt (hle v (by simp)) hneg
  have hr0 : (rest.map Prod.snd).sum ≤ 0 :=
    list_sum_nonpos (fun x hx => hall x (by simp [hx]))
  simp only [List.map_cons, List.sum_cons] at hsum
  linarith

theorem max_payment_nonneg (input : Input) : 0 ≤ max_payment input :=
  abs_nonneg _

theorem max_payment_ge {input : Input} (h : input ≠ []) :
    ∀ v ∈ input.map Prod.snd, -v ≤ max_payment input := by
  obtain ⟨m, hmem, heq, hle⟩ := max_payment_spec h
  intro v hv
  calc -v ≤ -m := neg_le_neg (hle v hv)
    _ ≤ |m| := neg_le_abs m
    _ = max_payment input := heq.symm

/-! ### Structural claims about the generated model -/

theorem AW_feasible : Feasible inputW AW := by
  unfold Feasible
  refine ⟨?_, ?_, ?_, ?_, ?_, ?_⟩ <;>
    simp [inputW, AW, names, nets, name_combos, name_combos_u,
      max_payout, max_payment, pyMax, pyMin, List.filter, List.lookup]

/-- C1: `Is_Transaction` is indexed once per unordered pair of distinct
participants (each unordered pair occurs exactly once, in one orientation,
in `name_combos_u`), and the objective is the plain sum of the indicators
over that index — for a feasible assignment it equals the number of
unordered pairs whose indicator is 1, with no division by 2. -/
theorem claim_C1 (input : Input) (hnd : (names input).Nodup) :
    (∀ n1 ∈ names input, ∀ n2 ∈ names input, n1 ≠ n2 →
        ((name_combos_u (names input)).filter
            (fun q => q = (n1, n2) ∨ q = (n2, n1))).length = 1) ∧
    (∀ A : Assignment, Feasible input A →
        objectiveVal input A =
          (((name_combos_u (names input)).filter
              (fun p => A.is_trans p.1 p.2 = 1)).length : ℚ)) := by
  refine ⟨fun n1 h1 n2 h2 hne => name_combos_u_once hnd h1 h2 hne,
    fun A hA => ?_⟩
  exact list_sum_eq_filter_length (fun p => A.is_trans p.1 p.2)
    (name_combos_u (names input)) hA.2.2.1

theorem claim_C1_witness :
    (names inputW).Nodup ∧
    ((∀ n1 ∈ names inputW, ∀ n2 ∈ names inputW, n1 ≠ n2 →
        ((name_combos_u (names inputW)).filter
            (fun q => q = (n1, n2) ∨ q = (n2, n1))).length = 1) ∧
      (∀ A : Assignment, Feasible inputW A →
        objectiveVal inputW A =
          (((name_combos_u (names inputW)).filter
              (fun p => A.is_trans p.1 p.2 = 1)).length : ℚ))) :=
  ⟨by decide, claim_C1 inputW (by decide)⟩

/-- C2: for every participant with non-negative required net, the model
constrains the sum of its `payout` variables to its net and the sum of its
`payment` variables to 0; for a negative-net participant, the reverse. -/
theorem claim_C2 (input : Input) (A : Assignment) (hA : Feasible input A) :
    ∀ n1 ∈ names input,
      (0 ≤ nets input n1 →
        (((names input).filter (fun n2 => n1 ≠ n2)).map
            (fun n2 => A.payout n1 n2)).sum = nets input n1 ∧
        (((names input).filter (fun n2 => n1 ≠ n2)).map
            (fun n2 => A.payment n1 n2)).sum = 0) ∧
      (nets input n1 < 0 →
        (((names input).filter (fun n2 => n1 ≠ n2)).map
            (fun n2 => A.payout n1 n2)).sum = 0 ∧
        (((names input).filter (fun n2 => n1 ≠ n2)).map
            (fun n2 => A.payment n1 n2)).sum = nets input n1) := by
  intro n1 h1
  have h := hA.2.2.2.2.2 n1 h1
  constructor
  · intro hpos; rwa [if_pos hpos] at h
  · intro hneg; rwa [if_neg (not_le.mpr hneg)] at h

theorem claim_C2_witness :
    Feasible inputW AW ∧
    (∀ n1 ∈ names inputW,
      (0 ≤ nets inputW n1 →
        (((names inputW).filter (fun n2 => n1 ≠ n2)).map
            (fun n2 => AW.payout n1 n2)).sum = nets inputW n1 ∧
        (((names inputW).filter (fun n2 => n1 ≠ n2)).map
            (fun n2 => AW.payment n1 n2)).sum = 0) ∧
      (nets inputW n1 < 0 →
        (((names inputW).filter (fun n2 => n1 ≠ n2)).map
            (fun n2 => AW.payout n1 n2)).sum = 0 ∧
        (((names inputW).filter (fun n2 => n1 ≠ n2)).map
            (fun n2 => AW.payment n1 n2)).sum = nets inputW n1)) :=
  ⟨AW_feasible, claim_C2 inputW AW AW_feasible⟩

/-- C3: the model couples the two directional ledgers: for every ordered
pair of distinct participants, `payout(n1,n2) + payment(n2,n1) = 0`, so the
amount one side books as received is the negative of what the other side
books as paid. -/
theorem claim_C3 (input : Input) (A : Assignment) (hA : Feasible input A) :
    ∀ n1 ∈ names input, ∀ n2 ∈ names input, n1 ≠ n2 →
      A.payout n1 n2 + A.payment n2 n1 = 0 ∧
      A.payout n1 n2 = -A.payment n2 n1 := by
  intro n1 h1 n2 h2 hne
  have h := hA.2.2.2.1 (n1, n2) (mem_name_combos.mpr ⟨h1, h2, hne⟩)
  exact ⟨h, by linarith⟩

theorem claim_C3_witness :
    Feasible inputW AW ∧
    (∀ n1 ∈ names inputW, ∀ n2 ∈ names inputW, n1 ≠ n2 →
      AW.payout n1 n2 + AW.payment n2 n1 = 0 ∧
      AW.payout n1 n2 = -AW.payment n2 n1) :=
  ⟨AW_feasible, claim_C3 inputW AW AW_feasible⟩

/-- C4: for every unordered pair the model bounds both directional payouts
by `payout - max_payout * is_transaction ≤ 0` and both directional payments
by `payment + max_payment * is_transaction ≥ 0`; `max_payout` is the
maximum balance and `max_payment` the absolute value of the minimum
balance.  Consequently a strictly positive payout or strictly negative
payment in either direction forces the pair's indicator to 1, while all
payouts being zero does not by itself force it to 0: the all-zero transfer
values satisfy these bound constraints with every indicator set to 1. -/
theorem claim_C4 (input : Input) (hne : input ≠ [])
    (hsum : (input.map Prod.snd).sum = 0) (A : Assignment)
    (hA : Feasible input A) :
    (∀ p ∈ name_combos_u (names input),
        (A.payout p.1 p.2 - max_payout input * A.is_trans p.1 p.2 ≤ 0 ∧
         A.payout p.2 p.1 - max_payout input * A.is_trans p.1 p.2 ≤ 0 ∧
         A.payment p.1 p.2 + max_payment input * A.is_trans p.1 p.2 ≥ 0 ∧
         A.payment p.2 p.1 + max_payment input * A.is_trans p.1 p.2 ≥ 0) ∧
        ((0 < A.payout p.1 p.2 ∨ 0 < A.payout p.2 p.1 ∨
          A.payment p.1 p.2 < 0 ∨ A.payment p.2 p.1 < 0) →
          A.is_trans p.1 p.2 = 1)) ∧
    (max_payout input ∈ input.map Prod.snd ∧
      ∀ v ∈ input.map Prod.snd, v ≤ max_payout input) ∧
    (∃ m ∈ input.map Prod.snd, max_payment input = |m| ∧
      ∀ v ∈ input.map Prod.snd, m ≤ v) ∧
    (∃ B : Assignment,
        (∀ p ∈ name_combos (names input), B.payout p.1 p.2 = 0) ∧
        (∀ p ∈ name_combos_u (names input), B.is_trans p.1 p.2 = 1) ∧
        (∀ p ∈ name_combos_u (names input),
          B.payout p.1 p.2 - max_payout input * B.is_trans p.1 p.2 ≤ 0 ∧
          B.payout p.2 p.1 - max_payout input * B.is_trans p.1 p.2 ≤ 0 ∧
          B.payment p.1 p.2 + max_payment input * B.is_trans p.1 p.2 ≥ 0 ∧
          B.payment p.2 p.1 + max_payment input * B.is_trans p.1 p.2 ≥ 0)) := by
  have hM : 0 ≤ max_payout input := max_payout_nonneg hne hsum
  have hM2 : 0 ≤ max_payment input := max_payment_nonneg input
  refine ⟨?_, max_payout_spec hne, max_payment_spec hne, ?_⟩
  · intro p hp
    have hb := hA.2.2.2.2.1 p hp
    obtain ⟨b1, b2, b3, b4⟩ := hb
    refine ⟨⟨b1, b2, b3, b4⟩, ?_⟩
    rcases hA.2.2.1 p hp with h0 | h1
    · intro hc
      exfalso
      rw [h0, mul_zero] at b1 b2 b3 b4
      rcases hc with h | h | h | h <;> linarith
    · exact fun _ => h1
  · refine ⟨⟨fun _ _ => 0, fun _ _ => 0, fun _ _ => 1⟩,
      fun p _ => rfl, fun p _ => rfl, fun p _ => ?_⟩
    refine ⟨?_, ?_, ?_, ?_⟩ <;> simp only [mul_one, zero_sub, zero_add,
      neg_nonpos, ge_iff_le] <;> assumption

theorem claim_C4_witness :
    (inputW ≠ [] ∧ (inputW.map Prod.snd).sum = 0 ∧ Feasible inputW AW) ∧
    ((∀ p ∈ name_combos_u (names inputW),
        (AW.payout p.1 p.2 - max_payout inputW * AW.is_trans p.1 p.2 ≤ 0 ∧
         AW.payout p.2 p.1 - max_payout inputW * AW.is_trans p.1 p.2 ≤ 0 ∧
         AW.payment p.1 p.2 + max_payment inputW * AW.is_trans p.1 p.2 ≥ 0 ∧
         AW.payment p.2 p.1 + max_payment inputW * AW.is_trans p.1 p.2 ≥ 0) ∧
        ((0 < AW.payout p.1 p.2 ∨ 0 < AW.payout p.2 p.1 ∨
          AW.payment p.1 p.2 < 0 ∨ AW.payment p.2 p.1 < 0) →
          AW.is_trans p.1 p.2 = 1)) ∧
      (max_payout inputW ∈ inputW.map Prod.snd ∧
        ∀ v ∈ inputW.map Prod.snd, v ≤ max_payout inputW) ∧
      (∃ m ∈ inputW.map Prod.snd, max_payment inputW = |m| ∧
        ∀ v ∈ inputW.map Prod.snd, m ≤ v) ∧
      (∃ B : Assignment,
        (∀ p ∈ name_combos (names inputW), B.payout p.1 p.2 = 0) ∧
        (∀ p ∈ name_combos_u (names inputW), B.is_trans p.1 p.2 = 1) ∧
        (∀ p ∈ name_combos_u (names inputW),
          B.payout p.1 p.2 - max_payout inputW * B.is_trans p.1 p.2 ≤ 0 ∧
          B.payout p.2 p.1 - max_payout inputW * B.is_trans p.1 p.2 ≤ 0 ∧
          B.payment p.1 p.2 + max_payment inputW * B.is_trans p.1 p.2 ≥ 0 ∧
          B.payment p.2 p.1 + max_payment inputW * B.is_trans p.1 p.2 ≥ 0))) :=
  ⟨⟨by simp [inputW], by simp [inputW], AW_feasible⟩,
    claim_C4 inputW (by simp [inputW]) (by simp [inputW]) AW AW_feasible⟩

/-- C9: in every feasible assignment, every `payment` variable of a
participant with non-negative net is exactly 0, and every `payout` variable
of a negative-net participant is exactly 0: money flows only from
negative-net participants directly to non-negative-net ones. -/
theorem claim_C9 (input : Input) (A : Assignment) (hA : Feasible input A) :
    ∀ n1 ∈ names input,
      (0 ≤ nets input n1 →
        ∀ n2 ∈ names input, n1 ≠ n2 → A.payment n1 n2 = 0) ∧
      (nets input n1 < 0 →
        ∀ n2 ∈ names input, n1 ≠ n2 → A.payout n1 n2 = 0) := by
  intro n1 h1
  have hbal := hA.2.2.2.2.2 n1 h1
  constructor
  · intro hpos n2 h2 hne
    rw [if_pos hpos] at hbal
    have hmem : A.payment n1 n2 ∈
        ((names input).filter (fun n2 => n1 ≠ n2)).map
          (fun n2 => A.payment n1 n2) :=
      List.mem_map.mpr ⟨n2, List.mem_filter.mpr ⟨h2, by simpa using hne⟩, rfl⟩
    refine list_sum_zero_of_nonpos ?_ hbal.2 _ hmem
    intro x hx
    obtain ⟨n2', hn2', rfl⟩ := List.mem_map.mp hx
    obtain ⟨hmem', hne'⟩ := List.mem_filter.mp hn2'
    exact hA.2.1 (n1, n2')
      (mem_name_combos.mpr ⟨h1, hmem', by simpa using hne'⟩)
  · intro hneg n2 h2 hne
    rw [if_neg (not_le.mpr hneg)] at hbal
    have hmem : A.payout n1 n2 ∈
        ((names input).filter (fun n2 => n1 ≠ n2)).map
          (fun n2 => A.payout n1 n2) :=
      List.mem_map.mpr ⟨n2, List.mem_filter.mpr ⟨h2, by simpa using hne⟩, rfl⟩
    refine list_sum_zero_of_nonneg ?_ hbal.1 _ hmem
    intro x hx
    obtain ⟨n2', hn2', rfl⟩ := List.mem_map.mp hx
    obtain ⟨hmem', hne'⟩ := List.mem_filter.mp hn2'
    exact hA.1 (n1, n2')
      (mem_name_combos.mpr ⟨h1, hmem', by simpa using hne'⟩)

theorem claim_C9_witness :
    Feasible inputW AW ∧
    (∀ n1 ∈ names inputW,
      (0 ≤ nets inputW n1 →
        ∀ n2 ∈ names inputW, n1 ≠ n2 → AW.payment n1 n2 = 0) ∧
      (nets inputW n1 < 0 →
        ∀ n2 ∈ names inputW, n1 ≠ n2 → AW.payout n1 n2 = 0)) :=
  ⟨AW_feasible, claim_C9 inputW AW AW_feasible⟩

/-! ### Input validation and post-solve behaviour (claims C6, C7, C8) -/

/-- C6 counterexample: a one-participant input whose balance sum is 5 — in
violation of both conditions of the claim — is not rejected: the script
builds and solves the model and terminates normally, with no
`InvalidInputError` (the script contains no validation at all). -/
theorem claim_C6_counterexample :
    runProgram [("A", 5)] (fun _ => AZ) = Except.ok ⟨0, []⟩ ∧
    [("A", (5 : ℚ))].length < 2 ∧ ([("A", (5 : ℚ))].map Prod.snd).sum ≠ 0 := by
  refine ⟨rfl, by simp, by simp⟩

/-- C6 (amended): the program performs no input validation whatsoever:
every nonempty balance mapping — whatever its participant count or balance
sum — proceeds to model construction and solving and terminates normally;
only an empty mapping fails, with Python's `ValueError` raised by `max()`,
not with an `InvalidInputError`. -/
theorem claim_C6_amended (input : Input) (solver : Input → Assignment) :
    (input ≠ [] → ∃ out, runProgram input solver = Except.ok out) ∧
    (input = [] → runProgram input solver = Except.error PyError.valueError) := by
  constructor
  · intro h
    obtain ⟨⟨n, v⟩, rest, rfl⟩ := List.exists_cons_of_ne_nil h
    exact ⟨_, rfl⟩
  · rintro rfl
    rfl

theorem claim_C6_witness :
    ([("A", (5 : ℚ))] ≠ [] ∧
      ∃ out, runProgram [("A", 5)] (fun _ => AZ) = Except.ok out) ∧
    (([] : Input) = [] ∧
      runProgram [] (fun _ => AZ) = Except.error PyError.valueError) :=
  ⟨⟨by simp, (claim_C6_amended [("A", 5)] (fun _ => AZ)).1 (by simp)⟩,
   ⟨rfl, (claim_C6_amended [] (fun _ => AZ)).2 rfl⟩⟩

/-- C7 counterexample: on the input where A is owed 100 and B owes 100, a
solver answer that transfers only 50 does not reconcile (A's realized net
is 50, not 100), yet the program terminates normally and prints its usual
output — no reconciliation is recomputed and no `ReconciliationError`
exists in the script. -/
theorem claim_C7_counterexample :
    runProgram inputW (fun _ => Abad) =
      Except.ok ⟨1, [("B", "A", -50)]⟩ ∧
    ¬ (∀ n ∈ names inputW, specRealizedNet inputW Abad n = nets inputW n) := by
  constructor
  · simp [runProgram, inputW, Abad, objectiveVal, printedPayments,
      name_combos, name_combos_u, names, pyMax, pyMin, List.filter,
      List.filterMap]
  · intro hall
    have h := hall "A" (by simp [inputW, names])
    simp [specRealizedNet, inputW, Abad, names, nets, List.filter,
      List.lookup] at h

/-- C7 (amended): after the solve the program only prints the solver
status, the objective value and the `Payment` variables with nonzero
value; it performs no reconciliation: the printed payment list depends
only on the `Payment` variable values, never on whether the realized
transfers match the required nets. -/
theorem claim_C7_amended (input : Input) (A B : Assignment)
    (h : ∀ p ∈ name_combos (names input),
        A.payment p.1 p.2 = B.payment p.1 p.2) :
    printedPayments input A = printedPayments input B := by
  unfold printedPayments
  refine List.filterMap_congr (fun p hp => ?_)
  rw [h p hp]

theorem claim_C7_witness :
    (∀ p ∈ name_combos (names inputW),
        AW.payment p.1 p.2 =
          (Assignment.mk (fun _ _ => 42) AW.payment (fun _ _ => 0)).payment
            p.1 p.2) ∧
    printedPayments inputW AW =
      printedPayments inputW
        (Assignment.mk (fun _ _ => 42) AW.payment (fun _ _ => 0)) :=
  ⟨fun p _ => rfl,
    claim_C7_amended inputW AW
      (Assignment.mk (fun _ _ => 42) AW.payment (fun _ _ => 0))
      (fun p _ => rfl)⟩

/-- C8 counterexample: the script's output is the nonzero `Payment`
variables, whose values are nonpositive by construction: already on the
two-person instance, the genuinely feasible optimal solution prints the
entry ("B", "A", -100), whose amount is not strictly positive, and no
per-participant reconciliation record is produced anywhere. -/
theorem claim_C8_counterexample :
    Feasible inputW AW ∧
    ("B", "A", (-100 : ℚ)) ∈ printedPayments inputW AW ∧
    ¬ (0 : ℚ) < -100 := by
  refine ⟨AW_feasible, ?_, by simp⟩
  simp [printedPayments, inputW, AW, name_combos, names, List.filter,
    List.filterMap]

/-- C8 (amended): the core's printed output is the list of `Payment`
entries with nonzero value — for any feasible assignment every printed
amount is strictly negative (it is the payer's `payment` variable, bounded
above by 0), not strictly positive, and there is no reconciliation
record. -/
theorem claim_C8_amended (input : Input) (A : Assignment)
    (hA : Feasible input A) :
    ∀ e ∈ printedPayments input A,
      e.2.2 < 0 ∧ e.2.2 = A.payment e.1 e.2.1 := by
  intro e he
  unfold printedPayments at he
  obtain ⟨p, hp, hsome⟩ := List.mem_filterMap.mp he
  by_cases h : A.payment p.1 p.2 ≠ 0
  · rw [if_pos h] at hsome
    obtain rfl : (p.1, p.2, A.payment p.1 p.2) = e := by
      simpa using hsome
    exact ⟨lt_of_le_of_ne (hA.2.1 p hp) h, rfl⟩
  · rw [if_neg h] at hsome
    cases hsome

theorem claim_C8_witness :
    Feasible inputW AW ∧
    (∀ e ∈ printedPayments inputW AW,
      e.2.2 < 0 ∧ e.2.2 = AW.payment e.1 e.2.1) :=
  ⟨AW_feasible, claim_C8_amended inputW AW AW_feasible⟩

/-! ### Bridging list sums to Finset sums -/

theorem list_sum_flatMap {α : Type} :
    ∀ (l : List α) (g : α → List ℚ),
      (l.flatMap g).sum = (l.map (fun a => (g a).sum)).sum
  | [], _ => rfl
  | a :: l, g => by
      simp [List.flatMap_cons, List.sum_append, list_sum_flatMap l g]

theorem list_filter_map_sum {l : List String} (hnd : l.Nodup) (a : String)
    (f : String → ℚ) :
    ((l.filter (fun x => a ≠ x)).map f).sum = ∑ x in l.toFinset.erase a, f x := by
  have h1 : (l.filter (fun x => a ≠ x)).Nodup := hnd.filter _
  rw [← List.sum_toFinset f h1]
  congr 1
  ext x
  simp only [List.mem_toFinset, List.mem_filter, Finset.mem_erase,
    decide_eq_true_eq]
  constructor
  · rintro ⟨hx, hne⟩; exact ⟨fun h => hne h.symm, hx⟩
  · rintro ⟨hne, hx⟩; exact ⟨hx, fun h => hne h.symm⟩

theorem list_map_sum_toFinset {l : List String} (hnd : l.Nodup)
    (f : String → ℚ) : (l.map f).sum = ∑ x in l.toFinset, f x :=
  (List.sum_toFinset f hnd).symm

/-- An ordered-pair total over `name_combos` equals the off-diagonal double
Finset sum. -/
theorem combos_sum_eq_double {l : List String} (hnd : l.Nodup)
    (F : String → String → ℚ) :
    ((name_combos l).map (fun p => F p.1 p.2)).sum =
      ∑ a in l.toFinset, ∑ c in l.toFinset.erase a, F a c := by
  unfold name_combos
  rw [List.map_flatMap, list_sum_flatMap, ← list_map_sum_toFinset hnd]
  refine congrArg _ (List.map_congr_left (fun a _ => ?_))
  rw [List.map_map]
  exact list_filter_map_sum hnd a (fun c => F a c)

theorem double_sum_swap (s : Finset String) (F : String → String → ℚ) :
    ∑ a in s, ∑ c in s.erase a, F a c = ∑ a in s, ∑ c in s.erase a, F c a := by
  have h : ∀ G : String → String → ℚ,
      ∑ a in s, ∑ c in s.erase a, G a c =
        ∑ a in s, ∑ c in s, if c ≠ a then G a c else 0 := by
    intro G
    refine Finset.sum_congr rfl (fun a _ => ?_)
    rw [← Finset.filter_ne', Finset.sum_filter]
  rw [h F, h (fun a c => F c a), Finset.sum_comm]
  refine Finset.sum_congr rfl (fun x _ => Finset.sum_congr rfl (fun y _ => ?_))
  by_cases hxy : x = y
  · subst hxy; simp
  · rw [if_pos hxy, if_pos (fun h => hxy h.symm)]

/-! ### The net-transactions dictionary -/

theorem nets_entry : ∀ {input : Input}, (names input).Nodup →
    ∀ {n : String} {v : ℚ}, (n, v) ∈ input → nets input n = v := by
  intro input
  induction input with
  | nil => intro _ n v h; cases h
  | cons e rest ih =>
      obtain ⟨m, w⟩ := e
      intro hnd n v h
      obtain ⟨hm, hrest⟩ :=
        List.nodup_cons.mp (show (m :: names rest).Nodup from hnd)
      rcases List.mem_cons.mp h with hh | hh
      · obtain ⟨rfl, rfl⟩ := Prod.mk.injEq .. ▸ hh
        simp [nets, List.lookup]
      · have hne : n ≠ m := by
          rintro rfl
          exact hm (List.mem_map.mpr ⟨(n, v), hh, rfl⟩)
        have hbeq : (n == m) = false := beq_eq_false_iff_ne.mpr hne
        have hrec := ih hrest hh
        simpa [nets, List.lookup, hbeq] using hrec

theorem nets_mem_values {input : Input} (hnd : (names input).Nodup)
    {n : String} (h : n ∈ names input) :
    nets input n ∈ input.map Prod.snd := by
  obtain ⟨⟨n', v⟩, hmem, rfl⟩ := List.mem_map.mp h
  rw [nets_entry hnd hmem]
  exact List.mem_map.mpr ⟨(n', v), hmem, rfl⟩

theorem nets_sum : ∀ {input : Input}, (names input).Nodup →
    ∑ x in (names input).toFinset, nets input x = (input.map Prod.snd).sum := by
  intro input
  induction input with
  | nil => intro _; simp [names]
  | cons e rest ih =>
      obtain ⟨m, w⟩ := e
      intro hnd
      obtain ⟨hm, hrest⟩ :=
        List.nodup_cons.mp (show (m :: names rest).Nodup from hnd)
      have hm' : m ∉ (names rest).toFinset := fun h => hm (List.mem_toFinset.mp h)
      have hstep : (names ((m, w) :: rest)).toFinset =
          insert m (names rest).toFinset := by simp [names]
      rw [hstep, Finset.sum_insert hm']
      have h1 : nets ((m, w) :: rest) m = w := by simp [nets, List.lookup]
      have h2 : ∀ x ∈ (names rest).toFinset,
          nets ((m, w) :: rest) x = nets rest x := by
        intro x hx
        have hne : x ≠ m := by
          rintro rfl
          exact hm (List.mem_toFinset.mp hx)
        have hbeq : (x == m) = false := beq_eq_false_iff_ne.mpr hne
        simp [nets, List.lookup, hbeq]
      rw [h1, Finset.sum_congr rfl h2, ih hrest]
      simp

/-! ### Claim C10: totals and infeasibility off the zero-sum manifold -/

theorem feasible_row_payout {input : Input} (hnd : (names input).Nodup)
    {A : Assignment} (hA : Feasible input A) :
    ∀ a ∈ (names input).toFinset,
      ∑ c in (names input).toFinset.erase a, A.payout a c =
        if 0 ≤ nets input a then nets input a else 0 := by
  intro a ha
  have hb := hA.2.2.2.2.2 a (List.mem_toFinset.mp ha)
  by_cases hcase : 0 ≤ nets input a
  · rw [if_pos hcase] at hb ⊢
    rw [← list_filter_map_sum hnd a]
    exact hb.1
  · rw [if_neg hcase] at hb ⊢
    rw [← list_filter_map_sum hnd a]
    exact hb.1

theorem feasible_row_payment {input : Input} (hnd : (names input).Nodup)
    {A : Assignment} (hA : Feasible input A) :
    ∀ a ∈ (names input).toFinset,
      ∑ c in (names input).toFinset.erase a, A.payment a c =
        if 0 ≤ nets input a then 0 else nets input a := by
  intro a ha
  have hb := hA.2.2.2.2.2 a (List.mem_toFinset.mp ha)
  by_cases hcase : 0 ≤ nets input a
  · rw [if_pos hcase] at hb ⊢
    rw [← list_filter_map_sum hnd a]
    exact hb.2
  · rw [if_neg hcase] at hb ⊢
    rw [← list_filter_map_sum hnd a]
    exact hb.2

/-- C10: in every feasible assignment the total of all payout variables is
the sum of the non-negative balances and the total of all payment
variables is the sum of the negative balances, and the coupling
constraints force the two totals to cancel; hence when the balances do not
sum to exactly zero the generated constraint set is infeasible. -/
theorem claim_C10 (input : Input) (hnd : (names input).Nodup) :
    (∀ A : Assignment, Feasible input A →
        totalPayout input A =
          (∑ x in (names input).toFinset.filter (fun x => 0 ≤ nets input x),
            nets input x) ∧
        totalPayment input A =
          (∑ x in (names input).toFinset.filter (fun x => nets input x < 0),
            nets input x) ∧
        totalPayout input A + totalPayment input A = 0) ∧
    ((input.map Prod.snd).sum ≠ 0 → ¬ ∃ A : Assignment, Feasible input A) := by
  have hmain : ∀ A : Assignment, Feasible input A →
      totalPayout input A =
        (∑ x in (names input).toFinset.filter (fun x => 0 ≤ nets input x),
          nets input x) ∧
      totalPayment input A =
        (∑ x in (names input).toFinset.filter (fun x => nets input x < 0),
          nets input x) ∧
      totalPayout input A + totalPayment input A = 0 := by
    intro A hA
    have h1 : totalPayout input A =
        ∑ a in (names input).toFinset,
          if 0 ≤ nets input a then nets input a else 0 := by
      rw [totalPayout, combos_sum_eq_double hnd]
      exact Finset.sum_congr rfl (feasible_row_payout hnd hA)
    have h2 : totalPayment input A =
        ∑ a in (names input).toFinset,
          if 0 ≤ nets input a then 0 else nets input a := by
      rw [totalPayment, combos_sum_eq_double hnd]
      exact Finset.sum_congr rfl (feasible_row_payment hnd hA)
    have hcouple : ∀ a ∈ (names input).toFinset,
        ∀ c ∈ (names input).toFinset.erase a,
          A.payout a c = -(A.payment c a) := by
      intro a ha c hc
      obtain ⟨hca, hcs⟩ := Finset.mem_erase.mp hc
      have h := hA.2.2.2.1 (a, c)
        (mem_name_combos.mpr ⟨List.mem_toFinset.mp ha,
          List.mem_toFinset.mp hcs, fun hh => hca hh.symm⟩)
      linarith
    have h3 : totalPayout input A + totalPayment input A = 0 := by
      have hc : totalPayout input A = -(totalPayment input A) := by
        calc totalPayout input A
            = ∑ a in (names input).toFinset,
                ∑ c in (names input).toFinset.erase a, A.payout a c :=
              combos_sum_eq_double hnd _
          _ = ∑ a in (names input).toFinset,
                ∑ c in (names input).toFinset.erase a, -(A.payment c a) :=
              Finset.sum_congr rfl (fun a ha =>
                Finset.sum_congr rfl (fun c hc => hcouple a ha c hc))
          _ = -(∑ a in (names input).toFinset,
                ∑ c in (names input).toFinset.erase a, A.payment c a) := by
              simp [Finset.sum_neg_distrib]
          _ = -(∑ a in (names input).toFinset,
                ∑ c in (names input).toFinset.erase a, A.payment a c) := by
              rw [double_sum_swap]
          _ = -(totalPayment input A) := by
              rw [totalPayment, combos_sum_eq_double hnd]
      linarith
    refine ⟨?_, ?_, h3⟩
    · rw [h1, Finset.sum_filter]
    · rw [h2, Finset.sum_filter]
      refine Finset.sum_congr rfl (fun x _ => ?_)
      by_cases hx : 0 ≤ nets input x
      · rw [if_pos hx, if_neg (not_lt.mpr hx)]
      · rw [if_neg hx, if_pos (not_le.mp hx)]
  refine ⟨hmain, fun hs ⟨A, hA⟩ => ?_⟩
  obtain ⟨hp1, hp2, hp3⟩ := hmain A hA
  have hsplit : (∑ x in (names input).toFinset.filter
        (fun x => 0 ≤ nets input x), nets input x) +
      (∑ x in (names input).toFinset.filter
        (fun x => nets input x < 0), nets input x) =
      ∑ x in (names input).toFinset, nets input x := by
    have h := Finset.sum_filter_add_sum_filter_not
      (names input).toFinset (fun x => 0 ≤ nets input x) (nets input)
    have hcongr : (names input).toFinset.filter
        (fun x => ¬ 0 ≤ nets input x) =
        (names input).toFinset.filter (fun x => nets input x < 0) := by
      refine Finset.filter_congr (fun x _ => ?_)
      simp [not_le]
    rw [hcongr] at h
    exact h
  rw [← hp1, ← hp2, hp3] at hsplit
  rw [nets_sum hnd] at hsplit
  exact hs hsplit.symm

theorem claim_C10_witness :
    (names inputW).Nodup ∧
    ((∀ A : Assignment, Feasible inputW A →
        totalPayout inputW A =
          (∑ x in (names inputW).toFinset.filter
            (fun x => 0 ≤ nets inputW x), nets inputW x) ∧
        totalPayment inputW A =
          (∑ x in (names inputW).toFinset.filter
            (fun x => nets inputW x < 0), nets inputW x) ∧
        totalPayout inputW A + totalPayment inputW A = 0) ∧
      ((inputW.map Prod.snd).sum ≠ 0 →
        ¬ ∃ A : Assignment, Feasible inputW A)) :=
  ⟨by decide, claim_C10 inputW (by decide)⟩

/-! ### Existence of a settlement with few transfers

For any zero-sum balance vector on a finite set of participants there is a
family of direct debtor-to-creditor transfers `T x y` (x pays y) that
realizes every balance and uses at most (number of nonzero balances) - 1
nonzero entries.  This is the classical greedy argument: repeatedly settle
one debtor against one creditor, zeroing at least one of them. -/

theorem exists_transfer (s : Finset String) :
    ∀ (k : ℕ) (b : String → ℚ), (s.filter (fun i => b i ≠ 0)).card = k →
      (∑ i in s, b i) = 0 →
      ∃ T : String → String → ℚ,
        (∀ x y, 0 ≤ T x y) ∧
        (∀ x y, T x y ≤ max (b y) 0) ∧
        (∀ x y, T x y ≤ max (-(b x)) 0) ∧
        (∀ x y, T x y ≠ 0 → x ∈ s ∧ y ∈ s) ∧
        (∀ y ∈ s, 0 ≤ b y → ∑ x in s, T x y = b y) ∧
        (∀ x ∈ s, b x < 0 → ∑ y in s, T x y = -(b x)) ∧
        ((s ×ˢ s).filter (fun p => T p.1 p.2 ≠ 0)).card ≤ k - 1 := by
  intro k
  induction k using Nat.strong_induction_on with
  | _ k ih =>
    intro b hk hsum
    rcases Nat.eq_zero_or_pos k with h0 | hkpos
    · subst h0
      have hzero : ∀ i ∈ s, b i = 0 := by
        intro i hi
        by_contra hne
        have hmem : i ∈ s.filter (fun i => b i ≠ 0) :=
          Finset.mem_filter.mpr ⟨hi, hne⟩
        have := Finset.card_pos.mpr ⟨i, hmem⟩
        omega
      refine ⟨fun _ _ => 0, fun _ _ => le_refl 0,
        fun _ _ => le_max_right _ _, fun _ _ => le_max_right _ _,
        fun _ _ h => absurd rfl h, ?_, ?_, ?_⟩
      · intro y hy _
        simp [hzero y hy]
      · intro x hx hneg
        rw [hzero x hx] at hneg
        exact absurd hneg (lt_irrefl 0)
      · have hemp : (s ×ˢ s).filter
            (fun p => (fun (_ _ : String) => (0 : ℚ)) p.1 p.2 ≠ 0) = ∅ :=
          Finset.filter_eq_empty_iff.mpr (fun _ => by simp)
        rw [hemp]
        simp
    · have hne0 : (s.filter (fun i => b i ≠ 0)).Nonempty := by
        rw [← Finset.card_pos, hk]
        exact hkpos
      have hpos : ∃ p ∈ s, 0 < b p := by
        by_contra hc
        push_neg at hc
        obtain ⟨i0, hi0⟩ := hne0
        obtain ⟨hi0s, hi0ne⟩ := Finset.mem_filter.mp hi0
        have hi0lt : b i0 < 0 := lt_of_le_of_ne (hc i0 hi0s) hi0ne
        have hlt : ∑ i in s, b i < ∑ i in s, (0 : ℚ) :=
          Finset.sum_lt_sum (fun i hi => hc i hi) ⟨i0, hi0s, hi0lt⟩
        simp [hsum] at hlt
      obtain ⟨p, hp, hbp⟩ := hpos
      have hneg : ∃ q ∈ s, b q < 0 := by
        by_contra hc
        push_neg at hc
        have hlt : ∑ i in s, (0 : ℚ) < ∑ i in s, b i :=
          Finset.sum_lt_sum (fun i hi => hc i hi) ⟨p, hp, hbp⟩
        simp [hsum] at hlt
      obtain ⟨q, hq, hbq⟩ := hneg
      have hpq : p ≠ q := by
        rintro rfl
        linarith
      set m := min (b p) (-(b q)) with hm_def
      have hm : 0 < m := lt_min hbp (by linarith)
      have hmp : m ≤ b p := min_le_left _ _
      have hmq : m ≤ -(b q) := min_le_right _ _
      set b' := fun i => if i = p then b p - m else
        if i = q then b q + m else b i with hbdef
      have hb'p : b' p = b p - m := by simp [hbdef]
      have hb'q : b' q = b q + m := by
        simp [hbdef, (Ne.symm hpq)]
      have hb'other : ∀ i, i ≠ p → i ≠ q → b' i = b i := by
        intro i h1 h2
        simp [hbdef, h1, h2]
      have hb'p0 : 0 ≤ b' p := by rw [hb'p]; linarith
      have hb'q0 : b' q ≤ 0 := by rw [hb'q]; linarith
      have hsum' : ∑ i in s, b' i = 0 := by
        have hsplit : ∀ i, b' i =
            b i + ((if i = p then -m else 0) + (if i = q then m else 0)) := by
          intro i
          by_cases h1 : i = p
          · subst h1
            rw [hb'p, if_pos rfl, if_neg hpq]
            ring
          · by_cases h2 : i = q
            · subst h2
              rw [hb'q, if_neg h1, if_pos rfl]
              ring
            · rw [hb'other i h1 h2, if_neg h1, if_neg h2]
              ring
        rw [Finset.sum_congr rfl (fun i _ => hsplit i), Finset.sum_add_distrib,
          Finset.sum_add_distrib, Finset.sum_ite_eq' s p (fun _ => -m),
          Finset.sum_ite_eq' s q (fun _ => m), if_pos hp, if_pos hq, hsum]
        ring
      have hsub : s.filter (fun i => b' i ≠ 0) ⊆
          s.filter (fun i => b i ≠ 0) := by
        intro i hi
        obtain ⟨his, hine⟩ := Finset.mem_filter.mp hi
        refine Finset.mem_filter.mpr ⟨his, ?_⟩
        by_cases h1 : i = p
        · subst h1; exact ne_of_gt hbp
        · by_cases h2 : i = q
          · subst h2; exact ne_of_lt hbq
          · rwa [hb'other i h1 h2] at hine
      have hzeroed : ∃ w ∈ s.filter (fun i => b i ≠ 0), b' w = 0 := by
        rcases min_cases (b p) (-(b q)) with ⟨heq, _⟩ | ⟨heq, _⟩
        · refine ⟨p, Finset.mem_filter.mpr ⟨hp, ne_of_gt hbp⟩, ?_⟩
          rw [hb'p, hm_def, heq]
          ring
        · refine ⟨q, Finset.mem_filter.mpr ⟨hq, ne_of_lt hbq⟩, ?_⟩
          rw [hb'q, hm_def, heq]
          ring
      obtain ⟨w, hw, hw0⟩ := hzeroed
      have hssub : s.filter (fun i => b' i ≠ 0) ⊆
          (s.filter (fun i => b i ≠ 0)).erase w := by
        intro i hi
        refine Finset.mem_erase.mpr ⟨?_, hsub hi⟩
        rintro rfl
        exact (Finset.mem_filter.mp hi).2 hw0
      have hk' : (s.filter (fun i => b' i ≠ 0)).card ≤ k - 1 := by
        calc (s.filter (fun i => b' i ≠ 0)).card
            ≤ ((s.filter (fun i => b i ≠ 0)).erase w).card :=
              Finset.card_le_card hssub
          _ = k - 1 := by rw [Finset.card_erase_of_mem hw, hk]
      have hk'lt : (s.filter (fun i => b' i ≠ 0)).card < k :=
        lt_of_le_of_lt hk' (by omega)
      have hk2 : 2 ≤ k := by
        have hsub2 : ({p, q} : Finset String) ⊆
            s.filter (fun i => b i ≠ 0) := by
          intro i hi
          rcases Finset.mem_insert.mp hi with h | h
          · subst h
            exact Finset.mem_filter.mpr ⟨hp, ne_of_gt hbp⟩
          · rw [Finset.mem_singleton.mp h]
            exact Finset.mem_filter.mpr ⟨hq, ne_of_lt hbq⟩
        calc 2 = ({p, q} : Finset String).card := (Finset.card_pair hpq).symm
          _ ≤ (s.filter (fun i => b i ≠ 0)).card := Finset.card_le_card hsub2
          _ = k := hk
      obtain ⟨T', h1', h2', h3', h4', h5', h6', h7'⟩ :=
        ih _ hk'lt b' rfl hsum'
      set T : String → String → ℚ :=
        fun x y => if x = q ∧ y = p then T' x y + m else T' x y with hT_def
      have hT : ∀ x y, T x y =
          if x = q ∧ y = p then T' x y + m else T' x y := fun _ _ => rfl
      refine ⟨T, ?_, ?_, ?_, ?_, ?_, ?_, ?_⟩
      · intro x y
        rw [hT]
        by_cases h : x = q ∧ y = p
        · rw [if_pos h]
          have := h1' x y
          linarith
        · rw [if_neg h]
          exact h1' x y
      · intro x y
        rw [hT]
        by_cases h : x = q ∧ y = p
        · rw [if_pos h]
          obtain ⟨hx, hy⟩ := h
          have hb := h2' x y
          rw [hy, max_eq_left hb'p0, hb'p] at hb
          rw [hy, max_eq_left (le_of_lt hbp)]
          linarith
        · rw [if_neg h]
          refine le_trans (h2' x y) ?_
          by_cases h1 : y = p
          · rw [h1, hb'p]
            exact max_le_max (by linarith) le_rfl
          · by_cases h2 : y = q
            · rw [h2, max_eq_right hb'q0]
              exact le_max_right _ _
            · rw [hb'other y h1 h2]
      · intro x y
        rw [hT]
        by_cases h : x = q ∧ y = p
        · rw [if_pos h]
          obtain ⟨hx, hy⟩ := h
          have hb := h3' x y
          have h0 : 0 ≤ -(b' q) := by rw [hb'q]; linarith
          rw [hx, max_eq_left h0, hb'q] at hb
          rw [hx, max_eq_left (by linarith : (0 : ℚ) ≤ -(b q))]
          linarith
        · rw [if_neg h]
          refine le_trans (h3' x y) ?_
          by_cases h1 : x = q
          · rw [h1, hb'q]
            refine max_le_max ?_ le_rfl
            linarith
          · by_cases h2 : x = p
            · have hle : -(b' p) ≤ 0 := by rw [hb'p]; linarith
              rw [h2, max_eq_right hle]
              exact le_max_right _ _
            · rw [hb'other x h2 h1]
      · intro x y hne
        rw [hT] at hne
        by_cases h : x = q ∧ y = p
        · exact ⟨by rw [h.1]; exact hq, by rw [h.2]; exact hp⟩
        · rw [if_neg h] at hne
          exact h4' x y hne
      · intro y hy hby
        have hyq : y ≠ q := by
          rintro rfl
          linarith
        have hTsplit : ∀ x, T x y =
            T' x y + (if x = q ∧ y = p then m else 0) := by
          intro x
          rw [hT]
          by_cases h : x = q ∧ y = p
          · rw [if_pos h, if_pos h]
          · rw [if_neg h, if_neg h]
            ring
        rw [Finset.sum_congr rfl (fun x _ => hTsplit x),
          Finset.sum_add_distrib]
        by_cases hyp : y = p
        · have hite : ∀ x, (if x = q ∧ y = p then m else 0) =
              (if x = q then m else 0) := by
            intro x
            by_cases h : x = q <;> simp [h, hyp]
          rw [Finset.sum_congr rfl (fun x _ => hite x),
            Finset.sum_ite_eq' s q (fun _ => m), if_pos hq, hyp,
            h5' p hp hb'p0, hb'p]
          ring
        · have hite : ∀ x, (if x = q ∧ y = p then m else 0) = 0 := by
            intro x
            simp [hyp]
          rw [Finset.sum_congr rfl (fun x _ => hite x)]
          simp only [Finset.sum_const_zero, add_zero]
          have hb'y : b' y = b y := hb'other y hyp hyq
          have h5 := h5' y hy (by rw [hb'y]; exact hby)
          rw [h5, hb'y]
      · intro x hx hbx
        have hxp : x ≠ p := by
          rintro rfl
          linarith
        have hTsplit : ∀ y, T x y =
            T' x y + (if x = q ∧ y = p then m else 0) := by
          intro y
          rw [hT]
          by_cases h : x = q ∧ y = p
          · rw [if_pos h, if_pos h]
          · rw [if_neg h, if_neg h]
            ring
        rw [Finset.sum_congr rfl (fun y _ => hTsplit y),
          Finset.sum_add_distrib]
        by_cases hxq : x = q
        · have hite : ∀ y, (if x = q ∧ y = p then m else 0) =
              (if y = p then m else 0) := by
            intro y
            by_cases h : y = p <;> simp [h, hxq]
          rw [Finset.sum_congr rfl (fun y _ => hite y),
            Finset.sum_ite_eq' s p (fun _ => m), if_pos hp]
          rcases eq_or_lt_of_le hb'q0 with heq | hlt
          · have hz : ∀ y, T' x y = 0 := by
              intro y
              refine le_antisymm ?_ (h1' x y)
              have h3 := h3' x y
              rw [hxq, heq] at h3
              rw [hxq]
              simpa using h3
            rw [Finset.sum_eq_zero (fun y _ => hz y)]
            have hmval : m = -(b x) := by
              have hh := hb'q
              rw [heq] at hh
              rw [hxq]
              linarith
            rw [hmval]
            ring
          · rw [hxq, h6' q hq hlt, hb'q]
            ring
        · have hite : ∀ y, (if x = q ∧ y = p then m else 0) = 0 := by
            intro y
            simp [hxq]
          rw [Finset.sum_congr rfl (fun y _ => hite y)]
          simp only [Finset.sum_const_zero, add_zero]
          have hb'x : b' x = b x := hb'other x hxp hxq
          have h6 := h6' x hx (by rw [hb'x]; exact hbx)
          rw [h6, hb'x]
      · have hsubT : (s ×ˢ s).filter (fun pr => T pr.1 pr.2 ≠ 0) ⊆
            insert (q, p) ((s ×ˢ s).filter
              (fun pr => T' pr.1 pr.2 ≠ 0)) := by
          intro pr hpr
          obtain ⟨hmem, hne⟩ := Finset.mem_filter.mp hpr
          rw [hT] at hne
          by_cases h : pr.1 = q ∧ pr.2 = p
          · refine Finset.mem_insert.mpr (Or.inl ?_)
            obtain ⟨h1, h2⟩ := h
            exact Prod.ext h1 h2
          · rw [if_neg h] at hne
            exact Finset.mem_insert.mpr
              (Or.inr (Finset.mem_filter.mpr ⟨hmem, hne⟩))
        have hcard1 := Finset.card_le_card hsubT
        have hcard2 := Finset.card_insert_le (q, p)
          ((s ×ˢ s).filter (fun pr => T' pr.1 pr.2 ≠ 0))
        omega

/-- From a debtor-to-creditor transfer family, a feasible assignment of the
model with at most `N - 1` transactions. -/
theorem exists_good_assignment (input : Input) (hnd : (names input).Nodup)
    (hN : 1 ≤ input.length) (hsum : (input.map Prod.snd).sum = 0) :
    ∃ A : Assignment, Feasible input A ∧
      objectiveVal input A ≤ (input.length : ℚ) - 1 := by
  have hne : input ≠ [] := by
    intro h
    subst h
    simp at hN
  have hsum0 : ∑ i in (names input).toFinset, nets input i = 0 := by
    rw [nets_sum hnd]
    exact hsum
  obtain ⟨T, hT1, hT2, hT3, hT4, hT5, hT6, hT7⟩ :=
    exists_transfer (names input).toFinset _ (nets input) rfl hsum0
  have hdiag : ∀ x, T x x = 0 := by
    intro x
    refine le_antisymm ?_ (hT1 x x)
    rcases le_or_lt 0 (nets input x) with h | h
    · rcases eq_or_lt_of_le h with heq | hlt
      · have hh := hT2 x x
        rw [← heq] at hh
        simpa using hh
      · have hh := hT3 x x
        rwa [max_eq_right (by linarith : -(nets input x) ≤ 0)] at hh
    · have hh := hT2 x x
      rwa [max_eq_right (le_of_lt h)] at hh
  have hbound1 : ∀ x y, y ∈ names input → T x y ≤ max_payout input := by
    intro x y hy
    refine le_trans (hT2 x y) (max_le ?_ (max_payout_nonneg hne hsum))
    exact (max_payout_spec hne).2 _ (nets_mem_values hnd hy)
  have hbound2 : ∀ x y, x ∈ names input → T x y ≤ max_payment input := by
    intro x y hx
    refine le_trans (hT3 x y) (max_le ?_ (max_payment_nonneg input))
    exact max_payment_ge hne _ (nets_mem_values hnd hx)
  refine ⟨⟨fun a c => T c a, fun a c => -(T a c),
    fun a c => if T a c ≠ 0 ∨ T c a ≠ 0 then 1 else 0⟩, ?_, ?_⟩
  · unfold Feasible
    dsimp only
    refine ⟨fun p _ => hT1 p.2 p.1,
      fun p _ => neg_nonpos.mpr (hT1 p.1 p.2), ?_, ?_, ?_, ?_⟩
    · intro p _
      by_cases h : T p.1 p.2 ≠ 0 ∨ T p.2 p.1 ≠ 0
      · rw [if_pos h]
        exact Or.inr rfl
      · rw [if_neg h]
        exact Or.inl rfl
    · intro p _
      ring
    · intro p hp
      obtain ⟨hp1, hp2⟩ := mem_name_combos_u_mem hp
      by_cases h : T p.1 p.2 ≠ 0 ∨ T p.2 p.1 ≠ 0
      · rw [if_pos h]
        have hb1 : T p.2 p.1 ≤ max_payout input := hbound1 p.2 p.1 hp1
        have hb2 : T p.1 p.2 ≤ max_payout input := hbound1 p.1 p.2 hp2
        have hb3 : T p.1 p.2 ≤ max_payment input := hbound2 p.1 p.2 hp1
        have hb4 : T p.2 p.1 ≤ max_payment input := hbound2 p.2 p.1 hp2
        refine ⟨by linarith, by linarith, by linarith, by linarith⟩
      · rw [if_neg h]
        push_neg at h
        obtain ⟨hz1, hz2⟩ := h
        refine ⟨by rw [hz2]; simp, by rw [hz1]; simp,
          by rw [hz1]; simp, by rw [hz2]; simp⟩
    · intro n1 hn1
      have hn1f : n1 ∈ (names input).toFinset := List.mem_toFinset.mpr hn1
      by_cases hcase : 0 ≤ nets input n1
      · rw [if_pos hcase]
        constructor
        · have herase : ∑ x in (names input).toFinset.erase n1, T x n1 =
              ∑ x in (names input).toFinset, T x n1 :=
            Finset.sum_erase _ (hdiag n1)
          rw [list_filter_map_sum hnd n1 (fun n2 => T n2 n1), herase]
          exact hT5 n1 hn1f hcase
        · apply List.sum_eq_zero
          intro x hx
          obtain ⟨c, _, rfl⟩ := List.mem_map.mp hx
          have hz : T n1 c = 0 := by
            refine le_antisymm ?_ (hT1 n1 c)
            have hh := hT3 n1 c
            rwa [max_eq_right (by linarith : -(nets input n1) ≤ 0)] at hh
          rw [hz, neg_zero]
      · rw [if_neg hcase]
        push_neg at hcase
        constructor
        · apply List.sum_eq_zero
          intro x hx
          obtain ⟨c, _, rfl⟩ := List.mem_map.mp hx
          refine le_antisymm ?_ (hT1 c n1)
          have hh := hT2 c n1
          rwa [max_eq_right (le_of_lt hcase)] at hh
        · have herase : ∑ x in (names input).toFinset.erase n1, -(T n1 x) =
              ∑ x in (names input).toFinset, -(T n1 x) :=
            Finset.sum_erase _ (by rw [hdiag n1, neg_zero])
          rw [list_filter_map_sum hnd n1 (fun n2 => -(T n1 n2)), herase,
            Finset.sum_neg_distrib, hT6 n1 hn1f hcase, neg_neg]
  · have hbin : ∀ p ∈ name_combos_u (names input),
        (if T p.1 p.2 ≠ 0 ∨ T p.2 p.1 ≠ 0 then (1 : ℚ) else 0) = 0 ∨
        (if T p.1 p.2 ≠ 0 ∨ T p.2 p.1 ≠ 0 then (1 : ℚ) else 0) = 1 := by
      intro p _
      by_cases h : T p.1 p.2 ≠ 0 ∨ T p.2 p.1 ≠ 0
      · exact Or.inr (if_pos h)
      · exact Or.inl (if_neg h)
    have hA : objectiveVal input
        ⟨fun a c => T c a, fun a c => -(T a c),
          fun a c => if T a c ≠ 0 ∨ T c a ≠ 0 then 1 else 0⟩ =
        (((name_combos_u (names input)).filter
          (fun p => T p.1 p.2 ≠ 0 ∨ T p.2 p.1 ≠ 0)).length : ℚ) := by
      unfold objectiveVal
      dsimp only
      rw [list_sum_eq_filter_length
        (fun p => if T p.1 p.2 ≠ 0 ∨ T p.2 p.1 ≠ 0 then (1 : ℚ) else 0)
        (name_combos_u (names input)) hbin]
      congr 2
      refine List.filter_congr (fun p _ => ?_)
      by_cases h : T p.1 p.2 ≠ 0 ∨ T p.2 p.1 ≠ 0
      · rw [if_pos h]
        simp [h]
      · rw [if_neg h]
        simp [h]
    set U := (name_combos_u (names input)).filter
      (fun p => T p.1 p.2 ≠ 0 ∨ T p.2 p.1 ≠ 0) with hU_def
    have hUnodup : U.Nodup := (name_combos_u_nodup hnd).filter _
    have hUmem : ∀ pr ∈ U, pr ∈ name_combos_u (names input) ∧
        (T pr.1 pr.2 ≠ 0 ∨ T pr.2 pr.1 ≠ 0) := by
      intro pr hpr
      obtain ⟨h1, h2⟩ := List.mem_filter.mp hpr
      exact ⟨h1, by simpa using h2⟩
    have hcardle : U.length ≤ input.length - 1 := by
      have hinj : U.toFinset.card ≤
          (((names input).toFinset ×ˢ (names input).toFinset).filter
            (fun pr => T pr.1 pr.2 ≠ 0)).card := by
        refine Finset.card_le_card_of_injOn
          (fun pr => if T pr.1 pr.2 ≠ 0 then pr else (pr.2, pr.1)) ?_ ?_
        · intro pr hpr
          dsimp only
          obtain ⟨hc, hP⟩ := hUmem pr (List.mem_toFinset.mp hpr)
          obtain ⟨hm1, hm2⟩ := mem_name_combos_u_mem hc
          by_cases h : T pr.1 pr.2 ≠ 0
          · rw [if_pos h]
            exact Finset.mem_filter.mpr
              ⟨Finset.mem_product.mpr ⟨List.mem_toFinset.mpr hm1,
                List.mem_toFinset.mpr hm2⟩, h⟩
          · rw [if_neg h]
            have hP2 : T pr.2 pr.1 ≠ 0 := by
              rcases hP with hP | hP
              · exact absurd hP h
              · exact hP
            exact Finset.mem_filter.mpr
              ⟨Finset.mem_product.mpr ⟨List.mem_toFinset.mpr hm2,
                List.mem_toFinset.mpr hm1⟩, hP2⟩
        · intro pr1 h1 pr2 h2 heq
          dsimp only at heq
          obtain ⟨hc1, _⟩ := hUmem pr1
            (List.mem_toFinset.mp (Finset.mem_coe.mp h1))
          obtain ⟨hc2, _⟩ := hUmem pr2
            (List.mem_toFinset.mp (Finset.mem_coe.mp h2))
          obtain ⟨a1, b1⟩ := pr1
          obtain ⟨a2, b2⟩ := pr2
          dsimp only at heq hc1 hc2 ⊢
          by_cases k1 : T a1 b1 ≠ 0 <;> by_cases k2 : T a2 b2 ≠ 0
          · rwa [if_pos k1, if_pos k2] at heq
          · rw [if_pos k1, if_neg k2] at heq
            obtain ⟨e1, e2⟩ := Prod.mk.injEq .. ▸ heq
            exact absurd hc2 (fun hcc =>
              name_combos_u_antisymm hnd hcc (by rw [← e1, ← e2]; exact hc1))
          · rw [if_neg k1, if_pos k2] at heq
            obtain ⟨e1, e2⟩ := Prod.mk.injEq .. ▸ heq
            exact absurd hc1 (fun hcc =>
              name_combos_u_antisymm hnd hcc (by rw [e1, e2]; exact hc2))
          · rw [if_neg k1, if_neg k2] at heq
            obtain ⟨e1, e2⟩ := Prod.mk.injEq .. ▸ heq
            rw [e1, e2]
      have hUcard : U.toFinset.card = U.length :=
        List.toFinset_card_of_nodup hUnodup
      have hkcard : ((names input).toFinset.filter
          (fun i => nets input i ≠ 0)).card ≤ (names input).toFinset.card :=
        Finset.card_filter_le _ _
      have hscard : (names input).toFinset.card = input.length := by
        rw [List.toFinset_card_of_nodup hnd]
        exact List.length_map input Prod.fst
      omega
    rw [hA]
    have hcast : (U.length : ℚ) ≤ ((input.length - 1 : ℕ) : ℚ) :=
      Nat.cast_le.mpr hcardle
    rwa [Nat.cast_sub hN, Nat.cast_one] at hcast

/-- C5: for every balance mapping of at least two participants whose
values sum to zero, the generated constraint set is feasible, every
optimal assignment has objective value (transaction count) at most N - 1,
and a feasible assignment of objective value 0 exists only when every
balance is exactly zero. -/
theorem claim_C5 (input : Input) (hnd : (names input).Nodup)
    (hN : 2 ≤ input.length) (hsum : (input.map Prod.snd).sum = 0) :
    (∃ A : Assignment, Feasible input A) ∧
    (∀ A : Assignment, IsOptimal input A →
      objectiveVal input A ≤ (input.length : ℚ) - 1) ∧
    (∀ A : Assignment, Feasible input A → objectiveVal input A = 0 →
      ∀ e ∈ input, e.2 = 0) := by
  obtain ⟨Astar, hfeas, hobj⟩ :=
    exists_good_assignment input hnd (by omega) hsum
  refine ⟨⟨Astar, hfeas⟩,
    fun A hopt => le_trans (hopt.2 Astar hfeas) hobj, ?_⟩
  intro A hA hzero e he
  have hbin := hA.2.2.1
  have hind : ∀ p ∈ name_combos_u (names input), A.is_trans p.1 p.2 = 0 := by
    have hnonneg : ∀ x ∈ (name_combos_u (names input)).map
        (fun p => A.is_trans p.1 p.2), 0 ≤ x := by
      intro x hx
      obtain ⟨p, hp, rfl⟩ := List.mem_map.mp hx
      rcases hbin p hp with h | h <;> rw [h] <;> norm_num
    have hall := list_sum_zero_of_nonneg hnonneg hzero
    intro p hp
    exact hall _ (List.mem_map.mpr ⟨p, hp, rfl⟩)
  have hpayzero : ∀ n1 n2, n1 ∈ names input → n2 ∈ names input → n1 ≠ n2 →
      A.payout n1 n2 = 0 := by
    intro n1 n2 h1 h2 hne12
    have hge := hA.1 (n1, n2) (mem_name_combos.mpr ⟨h1, h2, hne12⟩)
    rcases name_combos_u_total hnd h1 h2 hne12 with hc | hc
    · have hb := (hA.2.2.2.2.1 (n1, n2) hc).1
      rw [hind (n1, n2) hc, mul_zero, sub_zero] at hb
      linarith
    · have hb := (hA.2.2.2.2.1 (n2, n1) hc).2.1
      rw [hind (n2, n1) hc, mul_zero, sub_zero] at hb
      linarith
  have hpaymzero : ∀ n1 n2, n1 ∈ names input → n2 ∈ names input → n1 ≠ n2 →
      A.payment n1 n2 = 0 := by
    intro n1 n2 h1 h2 hne12
    have hle := hA.2.1 (n1, n2) (mem_name_combos.mpr ⟨h1, h2, hne12⟩)
    rcases name_combos_u_total hnd h1 h2 hne12 with hc | hc
    · have hb := (hA.2.2.2.2.1 (n1, n2) hc).2.2.1
      rw [hind (n1, n2) hc, mul_zero, add_zero] at hb
      linarith
    · have hb := (hA.2.2.2.2.1 (n2, n1) hc).2.2.2
      rw [hind (n2, n1) hc, mul_zero, add_zero] at hb
      linarith
  obtain ⟨n, v⟩ := e
  have hn : n ∈ names input := List.mem_map.mpr ⟨(n, v), he, rfl⟩
  have hv : nets input n = v := nets_entry hnd he
  have hbal := hA.2.2.2.2.2 n hn
  by_cases hcase : 0 ≤ nets input n
  · rw [if_pos hcase] at hbal
    have hzrow : (((names input).filter (fun n2 => n ≠ n2)).map
        (fun n2 => A.payout n n2)).sum = 0 := by
      apply List.sum_eq_zero
      intro x hx
      obtain ⟨c, hc, rfl⟩ := List.mem_map.mp hx
      obtain ⟨hcm, hcne⟩ := List.mem_filter.mp hc
      exact hpayzero n c hn hcm (by simpa using hcne)
    show v = 0
    rw [← hv, ← hbal.1, hzrow]
  · rw [if_neg hcase] at hbal
    have hzrow : (((names input).filter (fun n2 => n ≠ n2)).map
        (fun n2 => A.payment n n2)).sum = 0 := by
      apply List.sum_eq_zero
      intro x hx
      obtain ⟨c, hc, rfl⟩ := List.mem_map.mp hx
      obtain ⟨hcm, hcne⟩ := List.mem_filter.mp hc
      exact hpaymzero n c hn hcm (by simpa using hcne)
    show v = 0
    rw [← hv, ← hbal.2, hzrow]

theorem claim_C5_witness :
    ((names inputW).Nodup ∧ 2 ≤ inputW.length ∧
      (inputW.map Prod.snd).sum = 0) ∧
    ((∃ A : Assignment, Feasible inputW A) ∧
      (∀ A : Assignment, IsOptimal inputW A →
        objectiveVal inputW A ≤ (inputW.length : ℚ) - 1) ∧
      (∀ A : Assignment, Feasible inputW A → objectiveVal inputW A = 0 →
        ∀ e ∈ inputW, e.2 = 0)) :=
  ⟨⟨by decide, by decide, by simp [inputW]⟩,
    claim_C5 inputW (by decide) (by decide) (by simp [inputW])⟩

end TransOpt
